import Mathlib

/-!
Verification of rad-parse against its specification.

Shallow embedding of the rad-parse DICOM parsing library. Byte buffers are
modelled as `List Nat` with entries below 256 (JS `Uint8Array`), JS objects
holding DICOM elements as association lists, and the mutable object heap of
the anonymizer as an explicit append-only store.

The RLE codec (`src/plugins/rle.ts`), the codec registry
(`src/plugins/codecs.ts`) and the anonymizer (`src/core/anonymizer.ts`) are
translated from their sources. The parsing core (bounded cursor view, header
decoder, one-shot and streaming drivers) is not part of the sources available
here; those components are modelled from the specification text, as marked on
each definition.
-/

namespace RadParse

/-! ## Association-list primitives

JS objects with string (or tag) keys, in insertion order: assignment to an
existing key keeps its position, assignment to a new key appends, `delete`
removes, `Object.keys` lists keys in order. -/

def entryLookup {α β : Type} [DecidableEq α] (d : List (α × β)) (k : α) : Option β :=
  (d.find? (fun p => p.1 = k)).map Prod.snd

def entrySet {α β : Type} [DecidableEq α] (d : List (α × β)) (k : α) (v : β) : List (α × β) :=
  if d.any (fun p => p.1 = k) then d.map (fun p => if p.1 = k then (k, v) else p)
  else d ++ [(k, v)]

def entryDelete {α β : Type} [DecidableEq α] (d : List (α × β)) (k : α) : List (α × β) :=
  d.filter (fun p => p.1 ≠ k)

theorem entryLookup_eq_none {α β : Type} [DecidableEq α] (d : List (α × β)) (k : α) :
    entryLookup d k = none ↔ ∀ p ∈ d, p.1 ≠ k := by
  simp [entryLookup, List.find?_eq_none]

theorem entryLookup_delete_ne {α β : Type} [DecidableEq α] (d : List (α × β)) (k u : α)
    (h : entryLookup d k = none) : entryLookup (entryDelete d u) k = none := by
  rw [entryLookup_eq_none] at h ⊢
  intro p hp
  exact h p (List.mem_of_mem_filter hp)

theorem entryLookup_delete_self {α β : Type} [DecidableEq α] (d : List (α × β)) (k : α) :
    entryLookup (entryDelete d k) k = none := by
  rw [entryLookup_eq_none]
  intro p hp
  have := List.of_mem_filter hp
  simpa using this

theorem mem_entrySet {α β : Type} [DecidableEq α] {d : List (α × β)} {k : α} {v : β}
    {p : α × β} (hp : p ∈ entrySet d k v) : p ∈ d ∨ p = (k, v) := by
  unfold entrySet at hp
  split at hp
  · rcases List.mem_map.1 hp with ⟨q, hq, hqe⟩
    by_cases hk : q.1 = k
    · right
      simp only [hk, if_pos] at hqe
      exact hqe.symm
    · left
      simp only [hk, if_neg, if_false] at hqe
      exact hqe ▸ hq
  · rcases List.mem_append.1 hp with h | h
    · exact Or.inl h
    · right; simpa using h

theorem mem_entryDelete {α β : Type} [DecidableEq α] {d : List (α × β)} {k : α}
    {p : α × β} (hp : p ∈ entryDelete d k) : p ∈ d :=
  List.mem_of_mem_filter hp

theorem entryLookup_of_mem_nodup {α β : Type} [DecidableEq α] {d : List (α × β)}
    (hnd : (d.map Prod.fst).Nodup) {p : α × β} (hp : p ∈ d) :
    entryLookup d p.1 = some p.2 := by
  induction d with
  | nil => cases hp
  | cons q t ih =>
      rcases List.mem_cons.1 hp with h | h
      · subst h
        simp [entryLookup, List.find?_cons]
      · have hq1 : q.1 ≠ p.1 := by
          intro he
          have : p.1 ∈ t.map Prod.fst := List.mem_map.2 ⟨p, h, rfl⟩
          rw [List.map_cons, List.nodup_cons] at hnd
          exact hnd.1 (he ▸ this)
        have ht : (t.map Prod.fst).Nodup := by
          rw [List.map_cons, List.nodup_cons] at hnd
          exact hnd.2
        simp [entryLookup, List.find?_cons, hq1] at *
        exact ih ht h

/-! ## RLE codec (`src/plugins/rle.ts`)

`RleCodec.packBits` compresses one segment with PackBits; `decompressRle`
decompresses one segment. Bytes are naturals below 256. -/

/-- Length of the run of leading bytes equal to `a` (uncapped). -/
def runLen (a : Nat) : List Nat → Nat
  | [] => 0
  | b :: t => if b = a then runLen a t + 1 else 0

/-- Length of the literal run starting the buffer, as scanned by the literal
loop of `RleCodec.packBits`: extend while the cap is not reached and the next
two bytes are not both present and equal (the loop breaks at the start of a
repeat run). -/
def litLen : Nat → List Nat → Nat
  | _, [] => 0
  | 0, _ :: _ => 0
  | _ + 1, [_] => 1
  | cap + 1, a :: b :: t => if a = b then 0 else litLen cap (b :: t) + 1

theorem runLen_cons_self (a : Nat) (l : List Nat) : runLen a (a :: l) = runLen a l + 1 := by
  simp [runLen]

theorem litLen_pos (a : Nat) (rest : List Nat) (h : rest.head? ≠ some a) :
    0 < litLen 128 (a :: rest) := by
  cases rest with
  | nil => simp [litLen]
  | cons b t =>
      have hba : ¬a = b := by
        intro he
        exact h (by simp [he])
      simp only [litLen]
      rw [if_neg hba]
      omega

/-- `RleCodec.packBits` (src/plugins/rle.ts:231-277): PackBits compression of
one segment. A repeat run of length `r` (2 to 128, found when two adjacent
bytes are equal) is encoded as byte `257 - r` followed by the repeated byte; a
literal run of length `l` (1 to 128) as byte `l - 1` followed by the `l`
bytes. The source's `runLen > 1` test in the repeat branch cannot fail, since
that branch is entered only when the two leading bytes are equal. -/
def packBits : List Nat → List Nat
  | [] => []
  | a :: rest =>
    if h : rest.head? = some a then
      let r := min (runLen a (a :: rest)) 128
      (257 - r) :: a :: packBits ((a :: rest).drop r)
    else
      let l := litLen 128 (a :: rest)
      (l - 1) :: ((a :: rest).take l ++ packBits ((a :: rest).drop l))
termination_by l => l.length
decreasing_by
  · simp only [List.length_drop, List.length_cons]
    exact Nat.sub_lt (Nat.succ_pos _)
      (lt_min (by rw [runLen_cons_self]; exact Nat.succ_pos _) (by norm_num))
  · simp only [List.length_drop, List.length_cons]
    exact Nat.sub_lt (Nat.succ_pos _) (litLen_pos _ _ (by assumption))

/-- `RleCodec.decompressRle` (src/plugins/rle.ts:129-157): PackBits
decompression of one segment. Control byte 0-127 introduces a literal run of
`n + 1` bytes (truncated copy if the buffer ends early); control byte 129-255
a repeat run of `257 - n` copies of the next byte; 128 (and any value outside
the byte range) falls through as a no-op. -/
def decompressRle : List Nat → List Nat
  | [] => []
  | n :: rest =>
    if n ≤ 127 then
      if n + 1 ≤ rest.length then
        rest.take (n + 1) ++ decompressRle (rest.drop (n + 1))
      else rest
    else if 129 ≤ n ∧ n ≤ 255 then
      match rest with
      | [] => []
      | b :: t => List.replicate (257 - n) b ++ decompressRle t
    else decompressRle rest
termination_by l => l.length
decreasing_by
  · simp only [List.length_drop, List.length_cons]; omega
  · simp only [List.length_cons]; omega
  · simp only [List.length_cons]; omega

theorem runLen_le (a : Nat) (l : List Nat) : runLen a l ≤ l.length := by
  induction l with
  | nil => simp [runLen]
  | cons b t ih =>
      simp only [runLen, List.length_cons]
      split
      · omega
      · omega

theorem take_runLen_eq_replicate (a : Nat) (l : List Nat) (r : Nat)
    (h : r ≤ runLen a l) : l.take r = List.replicate r a := by
  induction l generalizing r with
  | nil =>
      have h0 : runLen a ([] : List Nat) = 0 := by simp [runLen]
      rw [h0] at h
      have : r = 0 := Nat.le_zero.1 h
      subst this
      simp
  | cons b t ih =>
      cases r with
      | zero => simp
      | succ r =>
          simp only [runLen] at h
          by_cases hb : b = a
          · rw [if_pos hb] at h
            subst hb
            simp only [List.take_succ_cons, List.replicate_succ]
            rw [ih r (by omega)]
          · rw [if_neg hb] at h
            omega

theorem litLen_le (cap : Nat) (l : List Nat) : litLen cap l ≤ l.length := by
  induction l generalizing cap with
  | nil => simp [litLen]
  | cons a t ih =>
      cases cap with
      | zero => simp [litLen]
      | succ cap =>
          cases t with
          | nil => simp [litLen]
          | cons b u =>
              simp only [litLen, List.length_cons]
              split
              · omega
              · have := ih cap
                simp only [List.length_cons] at this
                omega

theorem litLen_le_cap (cap : Nat) (l : List Nat) : litLen cap l ≤ cap := by
  induction l generalizing cap with
  | nil => simp [litLen]
  | cons a t ih =>
      cases cap with
      | zero => simp [litLen]
      | succ cap =>
          cases t with
          | nil => simp [litLen]
          | cons b u =>
              simp only [litLen]
              split
              · omega
              · have := ih cap
                omega

/-- Helper: the round trip, by strong induction on a length bound. -/
theorem decompress_packBits_aux :
    ∀ (n : Nat) (s : List Nat), s.length ≤ n → decompressRle (packBits s) = s := by
  intro n
  induction n with
  | zero =>
      intro s hs
      have : s = [] := List.eq_nil_of_length_eq_zero (Nat.le_zero.1 hs)
      subst this
      simp [packBits, decompressRle]
  | succ n ih =>
      intro s hs
      cases s with
      | nil => simp [packBits, decompressRle]
      | cons a rest =>
        rw [packBits]
        by_cases hh : rest.head? = some a
        · rw [dif_pos hh]
          have hrun : 2 ≤ runLen a (a :: rest) := by
            cases rest with
            | nil => simp at hh
            | cons b t =>
                have hb : b = a := by simpa using hh
                subst hb
                rw [runLen_cons_self, runLen_cons_self]
                omega
          have hr2 : 2 ≤ min (runLen a (a :: rest)) 128 := le_min hrun (by norm_num)
          have hr128 : min (runLen a (a :: rest)) 128 ≤ 128 := min_le_right _ _
          set r := min (runLen a (a :: rest)) 128 with hrdef
          have hctl1 : ¬(257 - r ≤ 127) := by omega
          have hctl2 : 129 ≤ 257 - r ∧ 257 - r ≤ 255 := by omega
          rw [decompressRle]
          rw [if_neg hctl1, if_pos hctl2]
          have hrep : 257 - (257 - r) = r := by omega
          rw [hrep]
          have hrlen : r ≤ (a :: rest).length := le_trans (min_le_left _ _) (runLen_le a _)
          have hdrop : ((a :: rest).drop r).length ≤ n := by
            simp only [List.length_drop]
            simp only [List.length_cons] at hs ⊢
            omega
          rw [ih _ hdrop]
          have htake : (a :: rest).take r = List.replicate r a :=
            take_runLen_eq_replicate a _ r (min_le_left _ _)
          conv_rhs => rw [← List.take_append_drop r (a :: rest)]
          rw [htake]
        · rw [dif_neg hh]
          have hl1 : 0 < litLen 128 (a :: rest) := litLen_pos a rest hh
          set l := litLen 128 (a :: rest) with hldef
          have hl128 : l ≤ 128 := litLen_le_cap _ _
          have hllen : l ≤ (a :: rest).length := litLen_le _ _
          have hctl : l - 1 ≤ 127 := by omega
          have hcons : (a :: rest).take l = a :: rest.take (l - 1) := by
            cases hl : l with
            | zero => omega
            | succ m =>
                rw [List.take_succ_cons]
                simp
          show decompressRle ((l - 1) :: ((a :: rest).take l ++ packBits ((a :: rest).drop l)))
              = a :: rest
          rw [hcons]
          rw [List.cons_append, decompressRle]
          rw [if_pos hctl]
          have htklen : (rest.take (l - 1)).length = l - 1 := by
            rw [List.length_take]
            simp only [List.length_cons] at hllen
            omega
          have hle : l - 1 + 1 ≤ (a :: (rest.take (l - 1) ++ packBits ((a :: rest).drop l))).length := by
            simp only [List.length_cons, List.length_append, htklen]
            omega
          rw [if_pos hle]
          have htk : (a :: (rest.take (l - 1) ++ packBits ((a :: rest).drop l))).take (l - 1 + 1)
              = a :: rest.take (l - 1) := by
            rw [List.take_succ_cons, List.take_append_eq_append_take, htklen]
            simp
          have hdr : (a :: (rest.take (l - 1) ++ packBits ((a :: rest).drop l))).drop (l - 1 + 1)
              = packBits ((a :: rest).drop l) := by
            rw [List.drop_succ_cons, List.drop_append_eq_append_drop, htklen]
            simp
          rw [htk, hdr]
          have hdroplen : ((a :: rest).drop l).length ≤ n := by
            simp only [List.length_drop]
            simp only [List.length_cons] at hs ⊢
            omega
          rw [ih _ hdroplen]
          rw [← hcons]
          exact List.take_append_drop l (a :: rest)

/-- C9: per-segment RLE encoding is lossless: for every byte segment `s`,
`RleCodec.decompressRle (RleCodec.packBits s) = s`. -/
theorem rle_packBits_roundTrip (s : List Nat) (hbytes : ∀ b ∈ s, b < 256) :
    decompressRle (packBits s) = s :=
  decompress_packBits_aux s.length s le_rfl

/-- Witness for C9 at the concrete segment from the repository's own codec
test: bytes 1,1,1,2,3,3. -/
theorem rle_packBits_roundTrip_witness :
    decompressRle (packBits [1, 1, 1, 2, 3, 3]) = [1, 1, 1, 2, 3, 3] :=
  rle_packBits_roundTrip [1, 1, 1, 2, 3, 3] (by decide)

/-! ## Codec registry (`src/plugins/codecs.ts`)

A codec is modelled by its name, priority, support flag (`isSupported`,
promises resolved) and its `canDecode` predicate. A dynamic loader
(`registerDynamic`) is modelled by the codec instance it would produce, or
`none` when the load throws or yields an invalid module. The promise cache
`loadingCodecs` only deduplicates concurrent loads and does not change the
returned codec; the model is single-threaded and omits it. -/

structure Codec where
  name : String
  priority : Int
  supported : Bool
  canDecode : String → Bool

structure CodecRegistry where
  codecs : List Codec
  dynamicCodecs : List (String × Option Codec)

/-- Comparator of `CodecRegistry.register`: `(a, b) => b.priority - a.priority`
sorts by non-increasing priority. -/
def priorityLe (a b : Codec) : Bool := b.priority ≤ a.priority

/-- `CodecRegistry.register` (src/plugins/codecs.ts:107-113): skip when a
codec of the same name is present, otherwise push and stable-sort by
descending priority. -/
def register (c : Codec) (r : CodecRegistry) : CodecRegistry :=
  if r.codecs.any (fun x => x.name = c.name) then r
  else { r with codecs := (r.codecs ++ [c]).mergeSort priorityLe }

/-- `FunctionalCodecConfig` (src/plugins/codecs.ts:30-45); `supported` holds
the result of `isSupported` (`() => true` when absent). -/
structure FunctionalCodecConfig where
  name : String
  transferSyntaxes : List String
  priority : Int
  supported : Bool

/-- The `FunctionalCodec` wrapper (src/plugins/codecs.ts:51-99): `canDecode`
is membership in the configured transfer-syntax list. -/
def FunctionalCodec (cfg : FunctionalCodecConfig) : Codec :=
  { name := cfg.name
    priority := cfg.priority
    supported := cfg.supported
    canDecode := fun ts => cfg.transferSyntaxes.contains ts }

/-- `CodecRegistry.registerFunctional` (src/plugins/codecs.ts:124-127). -/
def registerFunctional (cfg : FunctionalCodecConfig) (r : CodecRegistry) : CodecRegistry :=
  register (FunctionalCodec cfg) r

/-- The qualification test of `getDecoder`:
`codec.canDecode(transferSyntax) && await codec.isSupported()`. -/
def qualifies (ts : String) (c : Codec) : Bool := c.canDecode ts && c.supported

/-- `CodecRegistry.getDecoder` (src/plugins/codecs.ts:129-180): first
qualifying statically registered codec (the list is kept sorted by descending
priority), else the dynamically loaded codec for this transfer syntax if it
qualifies, else null. The dynamic branch also registers the loaded instance;
only the returned value is modelled. -/
def getDecoder (r : CodecRegistry) (ts : String) : Option Codec :=
  match r.codecs.find? (qualifies ts) with
  | some c => some c
  | none =>
      match entryLookup r.dynamicCodecs ts with
      | none => none
      | some none => none
      | some (some inst) => if qualifies ts inst then some inst else none

/-- Registry state invariant: codec names are pairwise distinct and the list
is sorted by non-increasing priority. -/
def registryInv (r : CodecRegistry) : Prop :=
  (r.codecs.map Codec.name).Nodup ∧
  r.codecs.Sorted (fun a b : Codec => b.priority ≤ a.priority)

/-- The registration calls a client can make. -/
inductive RegOp
  | reg (c : Codec)
  | regFun (cfg : FunctionalCodecConfig)

def applyOp (r : CodecRegistry) (op : RegOp) : CodecRegistry :=
  match op with
  | .reg c => register c r
  | .regFun cfg => registerFunctional cfg r

def applyOps (ops : List RegOp) (r : CodecRegistry) : CodecRegistry :=
  ops.foldl applyOp r

def emptyRegistry : CodecRegistry := { codecs := [], dynamicCodecs := [] }

theorem priorityLe_trans (a b c : Codec) (h1 : priorityLe a b = true)
    (h2 : priorityLe b c = true) : priorityLe a c = true := by
  simp only [priorityLe, decide_eq_true_eq] at *
  omega

theorem priorityLe_total (a b : Codec) : (priorityLe a b || priorityLe b a) = true := by
  simp only [priorityLe, Bool.or_eq_true, decide_eq_true_eq]
  omega

theorem register_preserves_inv (c : Codec) (r : CodecRegistry) (h : registryInv r) :
    registryInv (register c r) := by
  unfold register
  split
  · exact h
  · rename_i hdup
    constructor
    · have hperm : ((r.codecs ++ [c]).mergeSort priorityLe).Perm (r.codecs ++ [c]) :=
        List.mergeSort_perm _ _
      have hpermmap := hperm.map Codec.name
      refine hpermmap.nodup_iff.2 ?_
      rw [List.map_append]
      rw [List.nodup_append]
      refine ⟨h.1, List.nodup_singleton _, ?_⟩
      intro x hx
      simp only [List.map_cons, List.map_nil, List.mem_singleton]
      intro he
      rcases List.mem_map.1 hx with ⟨y, hy, hyx⟩
      apply hdup
      rw [List.any_eq_true]
      exact ⟨y, hy, by simp [hyx, he]⟩
    · have hs := List.sorted_mergeSort priorityLe_trans priorityLe_total (r.codecs ++ [c])
      refine hs.imp ?_
      intro a b hab
      simpa [priorityLe] using hab

/-- C10 (part): the registry invariant holds after any sequence of `register`
and `registerFunctional` calls starting from a fresh registry. -/
theorem applyOps_inv_aux (ops : List RegOp) (r : CodecRegistry) (h : registryInv r) :
    registryInv (applyOps ops r) := by
  induction ops generalizing r with
  | nil => exact h
  | cons op t ih =>
      refine ih _ ?_
      cases op with
      | reg c => exact register_preserves_inv c r h
      | regFun cfg => exact register_preserves_inv (FunctionalCodec cfg) r h

/-- C10: after every sequence of `register`/`registerFunctional` calls on a
fresh `CodecRegistry`, the codec list has pairwise distinct names and is
sorted by non-increasing priority; registering a codec whose name is already
present leaves the registry unchanged. -/
theorem codecRegistry_inv (ops : List RegOp) :
    registryInv (applyOps ops emptyRegistry) ∧
    ∀ (c : Codec) (r : CodecRegistry), (∃ x ∈ r.codecs, x.name = c.name) →
      register c r = r := by
  constructor
  · refine applyOps_inv_aux ops emptyRegistry ?_
    constructor
    · simp [emptyRegistry]
    · simp [emptyRegistry, List.Sorted]
  · intro c r hx
    unfold register
    rw [if_pos]
    rw [List.any_eq_true]
    rcases hx with ⟨x, hm, he⟩
    exact ⟨x, hm, by simp [he]⟩

/-- Witness for C10: concrete run of registrations, with a duplicate-name
registration leaving the registry unchanged. -/
theorem codecRegistry_inv_witness :
    registryInv (applyOps
      [RegOp.reg { name := "rle-typescript", priority := 10, supported := true,
                   canDecode := fun ts => ts = "1.2.840.10008.1.2.5" },
       RegOp.regFun { name := "browser", transferSyntaxes := ["1.2.840.10008.1.2.4.50"],
                      priority := 50, supported := false },
       RegOp.reg { name := "rle-typescript", priority := 99, supported := true,
                   canDecode := fun _ => true }] emptyRegistry) ∧
    register { name := "rle-typescript", priority := 99, supported := true,
               canDecode := fun _ => true }
      { codecs := [{ name := "rle-typescript", priority := 10, supported := true,
                     canDecode := fun ts => ts = "1.2.840.10008.1.2.5" }],
        dynamicCodecs := [] }
      = { codecs := [{ name := "rle-typescript", priority := 10, supported := true,
                       canDecode := fun ts => ts = "1.2.840.10008.1.2.5" }],
          dynamicCodecs := [] } := by
  constructor
  · exact (codecRegistry_inv _).1
  · exact (codecRegistry_inv []).2 _ _ ⟨_, List.mem_singleton_self _, rfl⟩

/-- C2: under the registry invariant (list sorted by non-increasing
priority), `getDecoder` returns only qualifying codecs (`canDecode` true and
`isSupported` true); when some statically registered codec qualifies it
returns a static qualifying codec of maximal priority; and it returns `none`
exactly when no static codec qualifies and no dynamic loader for the transfer
syntax yields a qualifying codec. -/
theorem getDecoder_spec (r : CodecRegistry) (ts : String)
    (hs : r.codecs.Sorted (fun a b : Codec => b.priority ≤ a.priority)) :
    (∀ c, getDecoder r ts = some c → qualifies ts c = true) ∧
    ((∃ c ∈ r.codecs, qualifies ts c = true) →
      ∃ c, getDecoder r ts = some c ∧ c ∈ r.codecs ∧ qualifies ts c = true ∧
        ∀ d ∈ r.codecs, qualifies ts d = true → d.priority ≤ c.priority) ∧
    (getDecoder r ts = none ↔
      (∀ c ∈ r.codecs, qualifies ts c = false) ∧
      (∀ c : Codec, entryLookup r.dynamicCodecs ts = some (some c) →
        qualifies ts c = false)) := by
  refine ⟨?_, ?_, ?_⟩
  · intro c hc
    unfold getDecoder at hc
    cases hf : r.codecs.find? (qualifies ts) with
    | some c0 =>
        rw [hf] at hc
        cases hc
        exact List.find?_some hf
    | none =>
        rw [hf] at hc
        cases hl : entryLookup r.dynamicCodecs ts with
        | none => rw [hl] at hc; cases hc
        | some o =>
            rw [hl] at hc
            cases o with
            | none => cases hc
            | some inst =>
                dsimp only at hc
                by_cases hq : qualifies ts inst = true
                · rw [if_pos hq] at hc
                  cases hc
                  exact hq
                · rw [if_neg hq] at hc
                  cases hc
  · intro ⟨c0, hc0m, hc0q⟩
    have hsome : (r.codecs.find? (qualifies ts)).isSome := by
      rw [List.find?_isSome]
      exact ⟨c0, hc0m, hc0q⟩
    rcases Option.isSome_iff_exists.1 hsome with ⟨c, hc⟩
    refine ⟨c, ?_, List.mem_of_find?_eq_some hc, List.find?_some hc, ?_⟩
    · unfold getDecoder
      rw [hc]
    · rcases List.find?_eq_some.1 hc with ⟨hq, as, bs, hsplit, hnone⟩
      intro d hd hdq
      rw [hsplit] at hs hd
      rcases List.mem_append.1 hd with hda | hdc
      · exact absurd hdq (by simpa using hnone d hda)
      · rcases List.mem_cons.1 hdc with rfl | hdb
        · exact le_rfl
        · have := (List.pairwise_append.1 hs).2.1
          rw [List.pairwise_cons] at this
          exact this.1 d hdb
  · unfold getDecoder
    constructor
    · intro hn
      cases hf : r.codecs.find? (qualifies ts) with
      | some c0 => rw [hf] at hn; cases hn
      | none =>
          rw [hf] at hn
          refine ⟨?_, ?_⟩
          · intro c hc
            have := List.find?_eq_none.1 hf c hc
            simpa using this
          · intro c hl
            rw [hl] at hn
            dsimp only at hn
            by_cases hq : qualifies ts c = true
            · rw [if_pos hq] at hn; cases hn
            · simpa using hq
    · intro ⟨hstat, hdyn⟩
      have hf : r.codecs.find? (qualifies ts) = none := by
        rw [List.find?_eq_none]
        intro c hc
        simp [hstat c hc]
      rw [hf]
      dsimp only
      cases hl : entryLookup r.dynamicCodecs ts with
      | none => rfl
      | some o =>
          cases o with
          | none => rfl
          | some inst =>
              dsimp only
              rw [if_neg (by simp [hdyn inst hl])]

/-- Concrete codecs and registry for the C2 witness, mirroring the
repository's codec test (RLE at priority 10, a browser codec at 50). -/
def wRle : Codec :=
  { name := "rle-typescript", priority := 10, supported := true,
    canDecode := fun ts => ts = "1.2.840.10008.1.2.5" }

def wBrowser : Codec :=
  { name := "browser", priority := 50, supported := true,
    canDecode := fun ts => ts = "1.2.840.10008.1.2.4.50" }

def wReg : CodecRegistry := { codecs := [wBrowser, wRle], dynamicCodecs := [] }

/-- Witness for C2: on the concrete registry, the decoder returned for the
RLE transfer syntax qualifies. -/
theorem getDecoder_spec_witness : qualifies "1.2.840.10008.1.2.5" wRle = true :=
  (getDecoder_spec wReg "1.2.840.10008.1.2.5"
    (by simp [wReg, wRle, wBrowser, List.Sorted, List.pairwise_cons])).1 wRle rfl

/-! ## Anonymizer (`src/core/anonymizer.ts`, `src/core/anonymizationRules.ts`)

JS object identity is modelled explicitly: element objects live in an
append-only store (`Store`), addressed by index; a dataset dictionary maps
tag keys to addresses. `{ ...obj, Value: v }` allocates a fresh object; the
spread copy `{ ...dataset.dict }` copies the tag-to-address map while sharing
the element objects. The duplicate lowercase `value` field kept alongside
`Value` in the source carries the same string and is not modelled separately.
The random UID generator (`Math.random`/`Date.now`) is modelled by an oracle
`gen` indexed by the number of UIDs generated so far. -/

structure ElementObj where
  vr : String
  Value : String
  length : Nat
deriving DecidableEq

abbrev Store := List ElementObj

abbrev Dict := List (String × Nat)

structure AnonState where
  store : Store
  dict : Dict
  uidMap : List (String × String)
  uidCount : Nat

structure AnonOptions where
  replacements : List (String × Option String)
  patientIdPrefix : Option String
  keepPrivateTags : Bool
  uidMap : List (String × String)

/-- `AnonymizationAction` from `src/core/anonymizationRules.ts`. -/
inductive AnonAction
  | X
  | Z
  | D
  | U
  | K

/-- `BASIC_PROFILE_RULES` (src/core/anonymizationRules.ts:24-75), in object
literal (= `Object.keys`) order. -/
def BASIC_PROFILE_RULES : List (String × AnonAction) :=
  [("x00080018", .U), ("x00080050", .Z), ("x00080080", .X), ("x00080081", .X),
   ("x00080090", .Z), ("x00080092", .X), ("x00080094", .X), ("x00081010", .X),
   ("x00081030", .X), ("x0008103E", .X), ("x00081040", .X), ("x00081048", .X),
   ("x00081050", .X), ("x00081060", .X), ("x00081070", .X), ("x00081080", .X),
   ("x00081155", .U), ("x00082111", .X), ("x00100010", .D), ("x00100020", .D),
   ("x00100030", .Z), ("x00100032", .Z), ("x00100040", .Z), ("x00101000", .X),
   ("x00101001", .X), ("x00101040", .X), ("x00102160", .X), ("x00102180", .X),
   ("x001021B0", .X), ("x00104000", .X), ("x00181000", .X), ("x00181030", .X),
   ("x0020000D", .U), ("x0020000E", .U), ("x00200010", .Z), ("x00200052", .U),
   ("x00200200", .U), ("x00204000", .X), ("x00400275", .X)]

/-- Dereference an element address (total; the default is never reached on
well-formed datasets, where every address is in the store). -/
def readObj (st : AnonState) (a : Nat) : ElementObj :=
  (st.store[a]?).getD { vr := "UN", Value := "", length := 0 }

/-- Allocate a fresh element object and point `tag` at it: models
`dict[tag] = { ...e, ... }`. -/
def allocSet (st : AnonState) (tag : String) (e : ElementObj) : AnonState :=
  { st with store := st.store ++ [e], dict := entrySet st.dict tag st.store.length }

/-- `originalUID.replace(/\0/g, '')`. -/
def stripNulls (s : String) : String :=
  String.mk (s.data.filter (fun c => c.toNat ≠ 0))

/-- `applyRule` (src/core/anonymizer.ts:114-159). `X` removes the entry, `Z`
empties, `D` writes the dummy prefix, `U` replaces the UID (reusing the map
entry unless it is absent or falsy), `K` keeps. Each modification builds a
fresh object by spreading the old one. -/
def applyRule (gen : Nat → String) (pfx : String) (tag : String) (act : AnonAction)
    (st : AnonState) : AnonState :=
  match act with
  | .X => { st with dict := entryDelete st.dict tag }
  | .Z =>
      match entryLookup st.dict tag with
      | none => st
      | some a => allocSet st tag { readObj st a with Value := "", length := 0 }
  | .D =>
      match entryLookup st.dict tag with
      | none => st
      | some a => allocSet st tag { readObj st a with Value := pfx, length := pfx.length }
  | .U =>
      match entryLookup st.dict tag with
      | none => st
      | some a =>
          let e := readObj st a
          let clean := stripNulls e.Value
          let found := (entryLookup st.uidMap clean).getD ""
          if found ≠ "" then
            allocSet st tag { e with Value := found, length := found.length }
          else
            let u := gen st.uidCount
            allocSet { st with uidMap := entrySet st.uidMap clean u,
                               uidCount := st.uidCount + 1 }
              tag { e with Value := u, length := u.length }
  | .K => st

/-- Step of phase 1 of `anonymize` (src/core/anonymizer.ts:57-71): skip when
a custom replacement exists for the tag, apply the profile rule when the
element is present. -/
def phase1Step (gen : Nat → String) (pfx : String) (reps : List (String × Option String))
    (st : AnonState) (p : String × AnonAction) : AnonState :=
  if (entryLookup reps p.1).isSome then st
  else
    match entryLookup st.dict p.1 with
    | none => st
    | some _ => applyRule gen pfx p.1 p.2 st

/-- Step of phase 2 of `anonymize` (src/core/anonymizer.ts:74-87): a null
replacement deletes the tag, otherwise a fresh element with the replacement
value is written (spreading the existing element or a default `UN` one). -/
def phase2Step (st : AnonState) (p : String × Option String) : AnonState :=
  match p.2 with
  | none => { st with dict := entryDelete st.dict p.1 }
  | some v =>
      let e := match entryLookup st.dict p.1 with
        | some a => readObj st a
        | none => { vr := "UN", Value := "", length := 0 }
      allocSet st p.1 { e with Value := v, length := v.length }

/-- JS whitespace accepted by `parseInt` (ASCII part). -/
def isJsSpace (c : Char) : Bool :=
  c.toNat = 32 || c.toNat = 9 || c.toNat = 10 || c.toNat = 11 || c.toNat = 12 || c.toNat = 13

def isHexDigitChar (c : Char) : Bool :=
  (48 ≤ c.toNat && c.toNat ≤ 57) || (97 ≤ c.toNat && c.toNat ≤ 102) ||
    (65 ≤ c.toNat && c.toNat ≤ 70)

def hexVal (c : Char) : Nat :=
  if c.toNat ≤ 57 then c.toNat - 48 else if c.toNat ≤ 70 then c.toNat - 55 else c.toNat - 87

/-- Value of the maximal hex-digit prefix. -/
def hexPrefixVal (acc : Nat) : List Char → Nat
  | [] => acc
  | c :: t => if isHexDigitChar c then hexPrefixVal (acc * 16 + hexVal c) t else acc

/-- `parseInt(s, 16)`: skip ASCII whitespace, an optional sign (`-` is 45,
`+` is 43), an optional `0x`/`0X` prefix (48 then 120 or 88), then take the
maximal hex-digit prefix; `none` models `NaN` (no digits). -/
def parseIntHex (s : List Char) : Option Int :=
  let s1 := s.dropWhile isJsSpace
  let sign : Int := if s1.head? = some (Char.ofNat 45) then -1 else 1
  let s2 := if s1.head? = some (Char.ofNat 45) ∨ s1.head? = some (Char.ofNat 43) then
    s1.tail else s1
  let s3 := if s2.head? = some (Char.ofNat 48) ∧
      (s2.tail.head? = some (Char.ofNat 120) ∨ s2.tail.head? = some (Char.ofNat 88)) then
    s2.tail.tail else s2
  if s3.isEmpty then none
  else if isHexDigitChar (s3.headD (Char.ofNat 48)) then
    some (sign * Int.ofNat (hexPrefixVal 0 (s3.takeWhile isHexDigitChar)))
  else none

/-- The private-tag test of phase 3 (src/core/anonymizer.ts:95-99):
`tag.startsWith('x') && tag.length === 9` and the group parsed from
`tag.substring(1, 5)` in base 16 is a number with `group % 2 !== 0`. -/
def isPrivateKey (t : String) : Bool :=
  decide (t.data.head? = some (Char.ofNat 120)) && decide (t.data.length = 9) &&
    (match parseIntHex ((t.data.drop 1).take 4) with
     | none => false
     | some g => decide (¬g % 2 = 0))

/-- Step of phase 3 of `anonymize` (src/core/anonymizer.ts:90-102): delete
private (odd group) tags. -/
def phase3Step (st : AnonState) (t : String) : AnonState :=
  if isPrivateKey t then { st with dict := entryDelete st.dict t } else st

/-- `options.patientIdPrefix || DEFAULT_PREFIX`: the default applies to an
absent option and to the falsy empty string. -/
def anonPrefixOf (o : Option String) : String :=
  match o with
  | none => "ANON"
  | some s => if s = "" then "ANON" else s

/-- Phases 1 and 2 of `anonymize` (src/core/anonymizer.ts:48-87): profile
rules, then custom replacements, starting from the spread copy of the input
dictionary over the shared store. -/
def anonCore (gen : Nat → String) (store : Store) (dict : Dict) (opts : AnonOptions) :
    AnonState :=
  opts.replacements.foldl phase2Step
    (BASIC_PROFILE_RULES.foldl
      (phase1Step gen (anonPrefixOf opts.patientIdPrefix) opts.replacements)
      { store := store, dict := dict, uidMap := opts.uidMap, uidCount := 0 })

/-- `anonymize` (src/core/anonymizer.ts:48-112): phases 1 and 2, then (unless
`keepPrivateTags`) phase 3 over the `Object.keys` snapshot of the dictionary. -/
def anonymize (gen : Nat → String) (store : Store) (dict : Dict) (opts : AnonOptions) :
    AnonState :=
  if opts.keepPrivateTags then anonCore gen store dict opts
  else
    ((anonCore gen store dict opts).dict.map Prod.fst).foldl phase3Step
      (anonCore gen store dict opts)

/-! ### Heap-shape invariant of the anonymizer -/

/-- The anonymizer invariant over the input store and dictionary: the store
only grows by fresh allocations, and every dictionary entry either still
points at the object the input dictionary had for that tag or points at a
fresh address. -/
def anonInv (store0 : Store) (dict0 : Dict) (st : AnonState) : Prop :=
  (∃ ext, st.store = store0 ++ ext) ∧
  ∀ p ∈ st.dict, entryLookup dict0 p.1 = some p.2 ∨ store0.length ≤ p.2

theorem foldl_preserve {σ α : Type} (P : σ → Prop) (f : σ → α → σ)
    (hf : ∀ s x, P s → P (f s x)) :
    ∀ (l : List α) (s : σ), P s → P (l.foldl f s) := by
  intro l
  induction l with
  | nil => intro s h; exact h
  | cons x t ih => intro s h; exact ih (f s x) (hf s x h)

theorem anonInv_allocSet (store0 : Store) (dict0 : Dict) (st : AnonState)
    (tag : String) (e : ElementObj) (h : anonInv store0 dict0 st) :
    anonInv store0 dict0 (allocSet st tag e) := by
  obtain ⟨⟨ext, hext⟩, hdict⟩ := h
  refine ⟨⟨ext ++ [e], by simp [allocSet, hext]⟩, ?_⟩
  intro p hp
  rcases mem_entrySet hp with hold | hnew
  · exact hdict p hold
  · right
    rw [hnew]
    have : store0.length ≤ st.store.length := by
      rw [hext]; simp
    simpa using this

theorem anonInv_delete (store0 : Store) (dict0 : Dict) (st : AnonState) (k : String)
    (h : anonInv store0 dict0 st) :
    anonInv store0 dict0 { st with dict := entryDelete st.dict k } :=
  ⟨h.1, fun p hp => h.2 p (mem_entryDelete hp)⟩

theorem anonInv_applyRule (store0 : Store) (dict0 : Dict) (gen : Nat → String)
    (pfx tag : String) (act : AnonAction) (st : AnonState) (h : anonInv store0 dict0 st) :
    anonInv store0 dict0 (applyRule gen pfx tag act st) := by
  cases act with
  | X =>
      simp only [applyRule]
      exact anonInv_delete _ _ _ _ h
  | Z =>
      simp only [applyRule]
      split
      · exact h
      · exact anonInv_allocSet _ _ _ _ _ h
  | D =>
      simp only [applyRule]
      split
      · exact h
      · exact anonInv_allocSet _ _ _ _ _ h
  | U =>
      simp only [applyRule]
      split
      · exact h
      · split
        · exact anonInv_allocSet _ _ _ _ _ h
        · exact anonInv_allocSet _ _ _ _ _ ⟨h.1, h.2⟩
  | K =>
      simp only [applyRule]
      exact h

theorem anonInv_phase1Step (store0 : Store) (dict0 : Dict) (gen : Nat → String)
    (pfx : String) (reps : List (String × Option String)) (st : AnonState)
    (p : String × AnonAction) (h : anonInv store0 dict0 st) :
    anonInv store0 dict0 (phase1Step gen pfx reps st p) := by
  unfold phase1Step
  split
  · exact h
  · split
    · exact h
    · exact anonInv_applyRule _ _ _ _ _ _ _ h

theorem anonInv_phase2Step (store0 : Store) (dict0 : Dict) (st : AnonState)
    (p : String × Option String) (h : anonInv store0 dict0 st) :
    anonInv store0 dict0 (phase2Step st p) := by
  unfold phase2Step
  split
  · exact anonInv_delete _ _ _ _ h
  · exact anonInv_allocSet _ _ _ _ _ h

theorem anonInv_phase3Step (store0 : Store) (dict0 : Dict) (st : AnonState)
    (t : String) (h : anonInv store0 dict0 st) :
    anonInv store0 dict0 (phase3Step st t) := by
  unfold phase3Step
  split
  · exact anonInv_delete _ _ _ _ h
  · exact h

theorem anonInv_anonymize (gen : Nat → String) (store : Store) (dict : Dict)
    (opts : AnonOptions) (hnd : (dict.map Prod.fst).Nodup) :
    anonInv store dict (anonymize gen store dict opts) := by
  have h0 : anonInv store dict
      { store := store, dict := dict, uidMap := opts.uidMap, uidCount := 0 } :=
    ⟨⟨[], by simp⟩, fun p hp => Or.inl (entryLookup_of_mem_nodup hnd hp)⟩
  have h1 := foldl_preserve (anonInv store dict) _
    (fun s x hs => anonInv_phase1Step store dict gen
      (anonPrefixOf opts.patientIdPrefix) opts.replacements s x hs)
    BASIC_PROFILE_RULES _ h0
  have h2 := foldl_preserve (anonInv store dict) _
    (fun s x hs => anonInv_phase2Step store dict s x hs)
    opts.replacements _ h1
  unfold anonymize
  split
  · exact h2
  · exact foldl_preserve (anonInv store dict) _
      (fun s x hs => anonInv_phase3Step store dict s x hs) _ _ h2

/-- C3: `anonymize` does not mutate its input: every element object reachable
from the input dataset is unchanged after the call (the store only grows by
fresh allocations), and every entry of the returned dictionary either shares
the input dictionary's object for that tag unchanged or points at a freshly
constructed object (an address the input store did not contain). -/
theorem anonymize_pure (gen : Nat → String) (store : Store) (dict : Dict)
    (opts : AnonOptions) (hnd : (dict.map Prod.fst).Nodup)
    (hwf : ∀ p ∈ dict, p.2 < store.length) :
    (∀ p ∈ dict, (anonymize gen store dict opts).store[p.2]? = store[p.2]?) ∧
    (∀ p ∈ (anonymize gen store dict opts).dict,
      entryLookup dict p.1 = some p.2 ∨ store.length ≤ p.2) := by
  obtain ⟨⟨ext, hext⟩, hdict⟩ := anonInv_anonymize gen store dict opts hnd
  refine ⟨?_, hdict⟩
  intro p hp
  rw [hext, List.getElem?_append, if_pos (hwf p hp)]

/-- Fixtures for the anonymizer witnesses: the mock dataset of
`tests/anonymizer.test.ts` (PatientName plus a private tag). -/
def wGen : Nat → String := fun _ => "2.25.424242.1"

def wStore : Store :=
  [{ vr := "PN", Value := "DOE^JOHN", length := 8 },
   { vr := "LO", Value := "PrivateData", length := 11 }]

def wDict : Dict := [("x00100010", 0), ("x00110010", 1)]

def wOpts : AnonOptions :=
  { replacements := [], patientIdPrefix := none, keepPrivateTags := false, uidMap := [] }

/-- Witness for C3: on the concrete dataset the original PatientName object
at address 0 is unchanged by anonymization. -/
theorem anonymize_pure_witness :
    (anonymize wGen wStore wDict wOpts).store[0]? = wStore[0]? :=
  (anonymize_pure wGen wStore wDict wOpts (by decide) (by decide)).1
    ("x00100010", 0) (by decide)

/-! ### Private-tag removal (C8) -/

/-- The claim's notion of a private tag key: the letter `x` followed by 8 hex
digits whose first 4 digits (the group number) form an odd value. -/
def claimPrivateTag (t : String) : Prop :=
  t.data.length = 9 ∧ t.data.head? = some (Char.ofNat 120) ∧
  (∀ c ∈ t.data.tail, isHexDigitChar c = true) ∧
  hexPrefixVal 0 ((t.data.drop 1).take 4) % 2 = 1

theorem hex_not_space (c : Char) (h : isHexDigitChar c = true) : isJsSpace c = false := by
  simp only [isHexDigitChar, Bool.or_eq_true, Bool.and_eq_true, decide_eq_true_eq] at h
  simp only [isJsSpace, Bool.or_eq_false_iff, decide_eq_false_iff_not]
  omega

theorem hex_toNat_ne (c : Char) (h : isHexDigitChar c = true) (m : Nat)
    (hm : m < 48 ∨ (57 < m ∧ m < 65) ∨ (70 < m ∧ m < 97) ∨ 102 < m) : ¬c.toNat = m := by
  simp only [isHexDigitChar, Bool.or_eq_true, Bool.and_eq_true, decide_eq_true_eq] at h
  omega

theorem takeWhile_of_all {α : Type} (p : α → Bool) :
    ∀ (l : List α), (∀ x ∈ l, p x = true) → l.takeWhile p = l := by
  intro l
  induction l with
  | nil => intro _; rfl
  | cons a t ih =>
      intro h
      rw [List.takeWhile_cons, if_pos (h a (List.mem_cons_self a t))]
      rw [ih (fun x hx => h x (List.mem_cons_of_mem a hx))]

/-- `parseInt(s, 16)` on a four hex-digit string is the hex value. -/
theorem char_ne_of_toNat_ne (c : Char) (m : Nat) (h : ¬c.toNat = m)
    (hm : (Char.ofNat m).toNat = m) : ¬(c = Char.ofNat m) := by
  intro he
  exact h (by rw [he, hm])

theorem parseIntHex_four (c1 c2 c3 c4 : Char)
    (h : ∀ x ∈ [c1, c2, c3, c4], isHexDigitChar x = true) :
    parseIntHex [c1, c2, c3, c4]
      = some (Int.ofNat (hexPrefixVal 0 [c1, c2, c3, c4])) := by
  have h1 := h c1 (by simp)
  have h2 := h c2 (by simp)
  have hsp : isJsSpace c1 = false := hex_not_space c1 h1
  have h45 : ¬(c1 = Char.ofNat 45) :=
    char_ne_of_toNat_ne c1 45 (hex_toNat_ne c1 h1 45 (by omega)) (by decide)
  have h43 : ¬(c1 = Char.ofNat 43) :=
    char_ne_of_toNat_ne c1 43 (hex_toNat_ne c1 h1 43 (by omega)) (by decide)
  have h120 : ¬(c2 = Char.ofNat 120) :=
    char_ne_of_toNat_ne c2 120 (hex_toNat_ne c2 h2 120 (by omega)) (by decide)
  have h88 : ¬(c2 = Char.ofNat 88) :=
    char_ne_of_toNat_ne c2 88 (hex_toNat_ne c2 h2 88 (by omega)) (by decide)
  simp only [parseIntHex, List.dropWhile_cons, hsp, Bool.false_eq_true, if_false]
  simp only [List.head?_cons, Option.some.injEq]
  rw [if_neg h45, if_neg (not_or_intro h45 h43)]
  simp only [List.tail_cons, List.head?_cons, Option.some.injEq]
  have h0x : ¬(c1 = Char.ofNat 48 ∧ (c2 = Char.ofNat 120 ∨ c2 = Char.ofNat 88)) :=
    fun hc => Or.elim hc.2 h120 h88
  rw [if_neg h0x]
  simp only [List.isEmpty_cons, Bool.false_eq_true, if_false, List.headD_cons,
    List.head?_cons, Option.getD_some]
  rw [if_pos h1, takeWhile_of_all _ _ h]
  simp

theorem claimPrivate_isPrivateKey (t : String) (h : claimPrivateTag t) :
    isPrivateKey t = true := by
  obtain ⟨hlen, hhead, hhex, hodd⟩ := h
  unfold isPrivateKey
  rcases hd : t.data with _ | ⟨c0, cs⟩
  · rw [hd] at hlen; simp at hlen
  · rw [hd] at hhead hhex hodd hlen
    rcases cs with _ | ⟨c1, cs⟩
    · simp at hlen
    rcases cs with _ | ⟨c2, cs⟩
    · simp at hlen
    rcases cs with _ | ⟨c3, cs⟩
    · simp at hlen
    rcases cs with _ | ⟨c4, cs⟩
    · simp at hlen
    have htake : ((c0 :: c1 :: c2 :: c3 :: c4 :: cs).drop 1).take 4 = [c1, c2, c3, c4] := by
      simp
    rw [htake] at hodd
    have hall : ∀ x ∈ [c1, c2, c3, c4], isHexDigitChar x = true := by
      intro x hx
      have hx4 : x = c1 ∨ x = c2 ∨ x = c3 ∨ x = c4 := by simpa using hx
      rcases hx4 with rfl | rfl | rfl | rfl
      · exact hhex x (by simp)
      · exact hhex x (by simp)
      · exact hhex x (by simp)
      · exact hhex x (by simp)
    rw [htake, parseIntHex_four c1 c2 c3 c4 hall]
    dsimp only
    have hne : ¬Int.ofNat (hexPrefixVal 0 [c1, c2, c3, c4]) % 2 = 0 := by
      intro hcon
      rw [Int.ofNat_eq_coe] at hcon
      have hcon' : hexPrefixVal 0 [c1, c2, c3, c4] % 2 = 0 := by exact_mod_cast hcon
      omega
    simp only [hhead, hlen, hne]
    simp

/-- Phase 3 deletes every tag the private-key test accepts: folding the key
snapshot deletes `t` if it is a key, and a tag that is not present stays
absent (phase 3 only deletes). -/
theorem phase3_kills (t : String) (ht : isPrivateKey t = true) :
    ∀ (ks : List String) (st : AnonState),
      (t ∈ ks ∨ entryLookup st.dict t = none) →
      entryLookup ((ks.foldl phase3Step st).dict) t = none := by
  intro ks
  induction ks with
  | nil =>
      intro st h
      rcases h with h | h
      · cases h
      · exact h
  | cons k ks ih =>
      intro st h
      rw [List.foldl_cons]
      rcases h with h | h
      · rcases List.mem_cons.1 h with rfl | hmem
        · apply ih
          right
          unfold phase3Step
          rw [if_pos ht]
          exact entryLookup_delete_self st.dict t
        · exact ih _ (Or.inl hmem)
      · apply ih
        right
        unfold phase3Step
        split
        · exact entryLookup_delete_ne _ _ _ h
        · exact h

theorem entryLookup_isSome_mem {α β : Type} [DecidableEq α] {d : List (α × β)} {k : α}
    {v : β} (h : entryLookup d k = some v) : k ∈ d.map Prod.fst := by
  unfold entryLookup at h
  cases hf : d.find? (fun p => p.1 = k) with
  | none => rw [hf] at h; cases h
  | some q =>
      have hq := List.find?_some hf
      have hmem := List.mem_of_find?_eq_some hf
      rw [decide_eq_true_eq] at hq
      exact hq ▸ List.mem_map.2 ⟨q, hmem, rfl⟩

/-- C8: with `keepPrivateTags` false, the anonymized dataset contains no
private tag key (`x` + 8 hex digits with odd group), even when a custom
replacement wrote such a tag, because private-tag removal runs after the
custom replacements. -/
theorem anonymize_removes_private (gen : Nat → String) (store : Store) (dict : Dict)
    (opts : AnonOptions) (hkeep : opts.keepPrivateTags = false)
    (t : String) (ht : claimPrivateTag t) :
    entryLookup (anonymize gen store dict opts).dict t = none := by
  unfold anonymize
  rw [hkeep]
  simp only [Bool.false_eq_true, if_false]
  apply phase3_kills t (claimPrivate_isPrivateKey t ht)
  by_cases hl : entryLookup (anonCore gen store dict opts).dict t = none
  · exact Or.inr hl
  · left
    obtain ⟨v, hv⟩ := Option.ne_none_iff_exists'.1 hl
    exact entryLookup_isSome_mem hv

/-- Witness for C8: the private tag of the test dataset is removed, and so is
a private tag written by a custom replacement. -/
theorem anonymize_removes_private_witness :
    entryLookup (anonymize wGen wStore wDict
      { replacements := [("x00110010", some "KEEP-ME")], patientIdPrefix := none,
        keepPrivateTags := false, uidMap := [] }).dict "x00110010" = none :=
  anonymize_removes_private wGen wStore wDict _ rfl "x00110010"
    (by unfold claimPrivateTag; refine ⟨by decide, by decide, by decide, by decide⟩)

/-! ## Bounded Cursor View (spec 4.1)

Modelled from the spec: the `SafeDataView` source file is not under `src/`
(only its export from `index-lite.ts` is); the reader is reconstructed from
spec 4.1: an endianness-aware cursor over a byte buffer where every read
validates `position + size <= bufferEnd`, signals out-of-bounds on failure,
and advances the position only on success. A float read returns the raw
32-bit pattern (bit-level float decoding is not modelled). -/

structure SafeDataView where
  buf : List Nat
  pos : Nat
  little : Bool

/-- The read operations of the contract: `readUint16/32/float`,
`readBytes(n)`, `readString(n, charset)`. -/
inductive ReadOp
  | u16
  | u32
  | f32
  | bytes (n : Nat)
  | str (n : Nat)

/-- Number of bytes each read consumes. -/
def opSize : ReadOp → Nat
  | .u16 => 2
  | .u32 => 4
  | .f32 => 4
  | .bytes n => n
  | .str n => n

inductive ReadVal
  | num (v : Nat)
  | raw (bs : List Nat)
  | text (s : String)
deriving DecidableEq

/-- Little-endian value of a byte list (first byte least significant). -/
def leVal : List Nat → Nat
  | [] => 0
  | b :: t => b + 256 * leVal t

/-- Big-endian value of a byte list. -/
def beVal (bs : List Nat) : Nat :=
  bs.foldl (fun acc b => acc * 256 + b) 0

/-- Value decoding for a read, from exactly the consumed byte slice; strings
use a one-byte-per-character charset model. -/
def decodeVal (op : ReadOp) (little : Bool) (bs : List Nat) : ReadVal :=
  match op with
  | .u16 => .num (if little then leVal bs else beVal bs)
  | .u32 => .num (if little then leVal bs else beVal bs)
  | .f32 => .num (if little then leVal bs else beVal bs)
  | .bytes _ => .raw bs
  | .str _ => .text (String.mk (bs.map Char.ofNat))

inductive ViewError
  | outOfBounds
deriving DecidableEq

/-- Modelled from the spec (4.1): one read on the bounded cursor view. The
bounds check `position + size <= bufferEnd` guards every operation; on
failure the state is returned unchanged with an out-of-bounds signal; on
success the value is decoded from the consumed slice and the position
advances by its size. -/
def readOp (op : ReadOp) (v : SafeDataView) : Except ViewError ReadVal × SafeDataView :=
  if v.pos + opSize op ≤ v.buf.length then
    (Except.ok (decodeVal op v.little ((v.buf.drop v.pos).take (opSize op))),
     { v with pos := v.pos + opSize op })
  else (Except.error ViewError.outOfBounds, v)

/-- C4: every read on the Bounded Cursor View checks
`position + size <= bufferEnd`; a failed check signals out-of-bounds and
leaves the whole state (in particular the read position) unchanged; a
successful read advances the position by exactly the operation size, leaves
the buffer untouched, and its value is computed from the byte slice between
the old position and the new one — never from bytes past the buffer end. -/
theorem readOp_safe (op : ReadOp) (v : SafeDataView) :
    (¬(v.pos + opSize op ≤ v.buf.length) →
      readOp op v = (Except.error ViewError.outOfBounds, v)) ∧
    (∀ r v', readOp op v = (Except.ok r, v') →
      v.pos + opSize op ≤ v.buf.length ∧
      v'.pos = v.pos + opSize op ∧ v'.buf = v.buf ∧ v'.little = v.little ∧
      r = decodeVal op v.little ((v.buf.take (v.pos + opSize op)).drop v.pos)) := by
  constructor
  · intro hb
    unfold readOp
    rw [if_neg hb]
  · intro r v' hr
    unfold readOp at hr
    by_cases hb : v.pos + opSize op ≤ v.buf.length
    · rw [if_pos hb] at hr
      obtain ⟨hr1, hr2⟩ := Prod.mk.injEq .. ▸ hr
      refine ⟨hb, ?_, ?_, ?_, ?_⟩
      · rw [← hr2]
      · rw [← hr2]
      · rw [← hr2]
      · have hslice : (v.buf.take (v.pos + opSize op)).drop v.pos
            = (v.buf.drop v.pos).take (opSize op) := by
          rw [List.drop_take]
          simp
        rw [hslice]
        exact (Except.ok.inj hr1).symm
    · rw [if_neg hb] at hr
      cases hr

/-- Witness for C4: a concrete in-bounds 16-bit read and its successor
state. -/
theorem readOp_safe_witness :
    (3 : Nat) + opSize ReadOp.u16 ≤ ([1, 2, 3, 4, 5] : List Nat).length ∧
    ({ buf := [1, 2, 3, 4, 5], pos := 3, little := true } : SafeDataView).pos
        + opSize ReadOp.u16 = 5 := by
  have h := (readOp_safe ReadOp.u16
    { buf := [1, 2, 3, 4, 5], pos := 3, little := true }).2
    (ReadVal.num 1284) { buf := [1, 2, 3, 4, 5], pos := 5, little := true } rfl
  exact ⟨h.1, h.2.1⟩

/-! ## Header decoder (spec 4.2)

Modelled from the spec: the header decoder source file is not under `src/`.
Spec 4.2: read the tag as two 16-bit values, then under Explicit VR a 2-byte
VR code; long-form VRs (OB OW OF OD OL SQ UC UR UT UN) skip 2 reserved bytes
and read a 32-bit length, the others a 16-bit length. Length `0xFFFFFFFF`
is the undefined-length sentinel, valid only for VR `SQ` or encapsulated
pixel data (VR `OB` with tag (7FE0,0010)); any other combination is a
structural error. Byte order is little-endian. -/

def read16LE (buf : List Nat) (i : Nat) : Option Nat :=
  match buf[i]?, buf[i + 1]? with
  | some a, some b => some (a + 256 * b)
  | _, _ => none

def read32LE (buf : List Nat) (i : Nat) : Option Nat :=
  match buf[i]?, buf[i + 1]?, buf[i + 2]?, buf[i + 3]? with
  | some a, some b, some c, some d =>
      some (a + 256 * b + 65536 * c + 16777216 * d)
  | _, _, _, _ => none

/-- The two-character VR code at offset `i`. -/
def vrAt (buf : List Nat) (i : Nat) : Option String :=
  match buf[i]?, buf[i + 1]? with
  | some a, some b => some (String.mk [Char.ofNat a, Char.ofNat b])
  | _, _ => none

/-- The long-form VRs of spec 4.2 step 2. -/
def longVRs : List String := ["OB", "OW", "OF", "OD", "OL", "SQ", "UC", "UR", "UT", "UN"]

def UNDEFINED_LENGTH : Nat := 4294967295

structure DicomHeader where
  group : Nat
  element : Nat
  vr : String
  length : Nat
  headerSize : Nat
deriving DecidableEq

/-- Modelled from the spec (4.2 steps 1-2): raw explicit-VR little-endian
header field decoding, before the undefined-length validity check. `none`
models the incomplete-header condition. -/
def rawHeader (buf : List Nat) : Option DicomHeader :=
  match read16LE buf 0, read16LE buf 2, vrAt buf 4 with
  | some g, some e, some vr =>
      if longVRs.contains vr then
        match read32LE buf 8 with
        | some len => some { group := g, element := e, vr := vr, length := len, headerSize := 12 }
        | none => none
      else
        match read16LE buf 6 with
        | some len => some { group := g, element := e, vr := vr, length := len, headerSize := 8 }
        | none => none
  | _, _, _ => none

/-- Spec 4.2 step 4: combinations for which the undefined-length sentinel is
legal. -/
def undefinedAllowed (h : DicomHeader) : Bool :=
  h.vr = "SQ" || (h.vr = "OB" && h.group = 0x7FE0 && h.element = 0x0010)

inductive HeaderError
  | incomplete
  | badUndefinedLength
deriving DecidableEq

/-- Modelled from the spec (4.2): header decoding with the undefined-length
validity check of step 4. -/
def decodeHeaderE (buf : List Nat) : Except HeaderError DicomHeader :=
  match rawHeader buf with
  | none => Except.error HeaderError.incomplete
  | some h =>
      if h.length = UNDEFINED_LENGTH && !undefinedAllowed h then
        Except.error HeaderError.badUndefinedLength
      else Except.ok h

/-- C5: a decoded header whose length field is the sentinel `0xFFFFFFFF` is
accepted by the header decoder exactly when its VR is `SQ` or it is
encapsulated pixel data (VR `OB` with tag (7FE0,0010)); in every other case
the decoder reports the structural undefined-length error. -/
theorem undefined_length_iff (buf : List Nat) (h : DicomHeader)
    (hr : rawHeader buf = some h) (hu : h.length = UNDEFINED_LENGTH) :
    (decodeHeaderE buf = Except.ok h ↔
      (h.vr = "SQ" ∨ (h.vr = "OB" ∧ h.group = 0x7FE0 ∧ h.element = 0x0010))) ∧
    (¬(h.vr = "SQ" ∨ (h.vr = "OB" ∧ h.group = 0x7FE0 ∧ h.element = 0x0010)) →
      decodeHeaderE buf = Except.error HeaderError.badUndefinedLength) := by
  have hform : decodeHeaderE buf =
      if h.length = UNDEFINED_LENGTH && !undefinedAllowed h then
        Except.error HeaderError.badUndefinedLength
      else Except.ok h := by
    unfold decodeHeaderE
    rw [hr]
  have hall : undefinedAllowed h = true ↔
      (h.vr = "SQ" ∨ (h.vr = "OB" ∧ h.group = 0x7FE0 ∧ h.element = 0x0010)) := by
    unfold undefinedAllowed
    simp [Bool.or_eq_true, Bool.and_eq_true, and_assoc]
  constructor
  · constructor
    · intro hok
      rw [hform] at hok
      by_cases ha : undefinedAllowed h = true
      · exact hall.1 ha
      · rw [if_pos ?_] at hok
        · cases hok
        · simp [hu, UNDEFINED_LENGTH, ha]
    · intro hcase
      rw [hform, if_neg ?_]
      simp [hall.2 hcase]
  · intro hcase
    have hna : undefinedAllowed h = false := by
      rcases hb : undefinedAllowed h with _ | _
      · rfl
      · exact absurd (hall.1 hb) hcase
    rw [hform, if_pos ?_]
    simp [hu, hna]

/-- Witness for C5: a concrete 12-byte explicit-VR header for an `SQ` element
of tag (0008,1115) with undefined length is accepted. -/
theorem undefined_length_iff_witness :
    decodeHeaderE [8, 0, 21, 17, 83, 81, 0, 0, 255, 255, 255, 255]
      = Except.ok { group := 8, element := 4373, vr := "SQ",
                    length := UNDEFINED_LENGTH, headerSize := 12 } :=
  (undefined_length_iff [8, 0, 21, 17, 83, 81, 0, 0, 255, 255, 255, 255]
    { group := 8, element := 4373, vr := "SQ", length := UNDEFINED_LENGTH, headerSize := 12 }
    rfl rfl).1.2 (Or.inl rfl)

/-! ## Drivers and chunking invariance (spec 4.5, 4.6, 8)

Modelled from the spec: the one-shot and streaming driver sources are not
under `src/`. Element decoding over explicit-VR little-endian streams: after
the header, a defined length consumes that many value bytes; the
undefined-length forms allowed by C5 consume bytes up to the sequence
delimitation item (FFFE,E0DD little-endian: 254 255 221 224, followed by a
4-byte length), per the spec's "read until a delimiter tag". The one-shot
driver repeats this to the end of the buffer; the streaming driver appends
chunks to a buffer window, decodes as far as possible, and keeps the
unconsumed suffix as pending state. -/

structure DicomElt where
  group : Nat
  element : Nat
  vr : String
  value : List Nat
deriving DecidableEq

/-- The sequence-delimitation tag (FFFE,E0DD), little-endian bytes. -/
def DELIM_BYTES : List Nat := [254, 255, 221, 224]

def isDelimAt (l : List Nat) : Bool := decide (l.take 4 = DELIM_BYTES)

/-- First offset of a complete delimiter (tag plus its 4-byte length): the
scan fails if the first tag match has fewer than 8 bytes available. -/
def findDelim : List Nat → Option Nat
  | [] => none
  | a :: t =>
      if isDelimAt (a :: t) then
        if 8 ≤ (a :: t).length then some 0 else none
      else (findDelim t).map (· + 1)

/-- Modelled from the spec (4.2, 4.4, 4.6): decode the next complete element
at the front of the buffer, returning it with the number of bytes consumed;
`none` when the buffer does not yet hold a complete element (or decoding
fails structurally). -/
def decodeNext (buf : List Nat) : Option (DicomElt × Nat) :=
  match decodeHeaderE buf with
  | Except.error _ => none
  | Except.ok h =>
      if h.length = UNDEFINED_LENGTH then
        match findDelim (buf.drop h.headerSize) with
        | none => none
        | some p =>
            some ({ group := h.group, element := h.element, vr := h.vr,
                    value := (buf.drop h.headerSize).take p },
                  h.headerSize + p + 8)
      else if h.headerSize + h.length ≤ buf.length then
        some ({ group := h.group, element := h.element, vr := h.vr,
                value := (buf.drop h.headerSize).take h.length },
              h.headerSize + h.length)
      else none

theorem getElem?_some_lt {α : Type} {l : List α} {i : Nat} {a : α}
    (h : l[i]? = some a) : i < l.length := by
  by_contra hn
  rw [List.getElem?_eq_none (Nat.le_of_not_lt hn)] at h
  cases h

theorem getElem?_append_of_some {α : Type} {l ext : List α} {i : Nat} {a : α}
    (h : l[i]? = some a) : (l ++ ext)[i]? = some a := by
  rw [List.getElem?_append, if_pos (getElem?_some_lt h)]
  exact h

theorem read16LE_append {buf ext : List Nat} {i v : Nat}
    (h : read16LE buf i = some v) : read16LE (buf ++ ext) i = some v := by
  unfold read16LE at h ⊢
  cases h0 : buf[i]? with
  | none => rw [h0] at h; cases h
  | some a =>
      cases h1 : buf[i + 1]? with
      | none => rw [h0, h1] at h; cases h
      | some b =>
          rw [h0, h1] at h
          rw [getElem?_append_of_some h0, getElem?_append_of_some h1]
          exact h

theorem read32LE_append {buf ext : List Nat} {i v : Nat}
    (h : read32LE buf i = some v) : read32LE (buf ++ ext) i = some v := by
  unfold read32LE at h ⊢
  cases h0 : buf[i]? with
  | none => rw [h0] at h; cases h
  | some a =>
      cases h1 : buf[i + 1]? with
      | none => rw [h0, h1] at h; cases h
      | some b =>
          cases h2 : buf[i + 2]? with
          | none => rw [h0, h1, h2] at h; cases h
          | some c =>
              cases h3 : buf[i + 3]? with
              | none => rw [h0, h1, h2, h3] at h; cases h
              | some d =>
                  rw [h0, h1, h2, h3] at h
                  rw [getElem?_append_of_some h0, getElem?_append_of_some h1,
                    getElem?_append_of_some h2, getElem?_append_of_some h3]
                  exact h

theorem vrAt_append {buf ext : List Nat} {i : Nat} {s : String}
    (h : vrAt buf i = some s) : vrAt (buf ++ ext) i = some s := by
  unfold vrAt at h ⊢
  cases h0 : buf[i]? with
  | none => rw [h0] at h; cases h
  | some a =>
      cases h1 : buf[i + 1]? with
      | none => rw [h0, h1] at h; cases h
      | some b =>
          rw [h0, h1] at h
          rw [getElem?_append_of_some h0, getElem?_append_of_some h1]
          exact h

theorem read16LE_le {buf : List Nat} {i v : Nat} (h : read16LE buf i = some v) :
    i + 2 ≤ buf.length := by
  unfold read16LE at h
  cases h0 : buf[i]? with
  | none => rw [h0] at h; cases h
  | some a =>
      cases h1 : buf[i + 1]? with
      | none => rw [h0, h1] at h; cases h
      | some b =>
          have := getElem?_some_lt h1
          omega

theorem read32LE_le {buf : List Nat} {i v : Nat} (h : read32LE buf i = some v) :
    i + 4 ≤ buf.length := by
  unfold read32LE at h
  cases h0 : buf[i]? with
  | none => rw [h0] at h; cases h
  | some a =>
      cases h1 : buf[i + 1]? with
      | none => rw [h0, h1] at h; cases h
      | some b =>
          cases h2 : buf[i + 2]? with
          | none => rw [h0, h1, h2] at h; cases h
          | some c =>
              cases h3 : buf[i + 3]? with
              | none => rw [h0, h1, h2, h3] at h; cases h
              | some d =>
                  have := getElem?_some_lt h3
                  omega

theorem rawHeader_append {buf ext : List Nat} {h : DicomHeader}
    (hr : rawHeader buf = some h) : rawHeader (buf ++ ext) = some h := by
  unfold rawHeader at hr ⊢
  cases hg : read16LE buf 0 with
  | none => rw [hg] at hr; cases hr
  | some g =>
      cases he : read16LE buf 2 with
      | none => rw [hg, he] at hr; cases hr
      | some e =>
          cases hv : vrAt buf 4 with
          | none => rw [hg, he, hv] at hr; cases hr
          | some vr =>
              rw [hg, he, hv] at hr
              rw [read16LE_append hg, read16LE_append he, vrAt_append hv]
              dsimp only at hr ⊢
              by_cases hlong : longVRs.contains vr = true
              · rw [if_pos hlong] at hr ⊢
                cases hl : read32LE buf 8 with
                | none => rw [hl] at hr; cases hr
                | some len =>
                    rw [hl] at hr
                    rw [read32LE_append hl]
                    exact hr
              · rw [if_neg hlong] at hr ⊢
                cases hl : read16LE buf 6 with
                | none => rw [hl] at hr; cases hr
                | some len =>
                    rw [hl] at hr
                    rw [read16LE_append hl]
                    exact hr

theorem rawHeader_size {buf : List Nat} {h : DicomHeader}
    (hr : rawHeader buf = some h) :
    (h.headerSize = 8 ∨ h.headerSize = 12) ∧ h.headerSize ≤ buf.length := by
  unfold rawHeader at hr
  cases hg : read16LE buf 0 with
  | none => rw [hg] at hr; cases hr
  | some g =>
      cases he : read16LE buf 2 with
      | none => rw [hg, he] at hr; cases hr
      | some e =>
          cases hv : vrAt buf 4 with
          | none => rw [hg, he, hv] at hr; cases hr
          | some vr =>
              rw [hg, he, hv] at hr
              dsimp only at hr
              by_cases hlong : longVRs.contains vr = true
              · rw [if_pos hlong] at hr
                cases hl : read32LE buf 8 with
                | none => rw [hl] at hr; cases hr
                | some len =>
                    rw [hl] at hr
                    cases hr
                    have := read32LE_le hl
                    constructor
                    · right; rfl
                    · simpa using this
              · rw [if_neg hlong] at hr
                cases hl : read16LE buf 6 with
                | none => rw [hl] at hr; cases hr
                | some len =>
                    rw [hl] at hr
                    cases hr
                    have := read16LE_le hl
                    constructor
                    · left; rfl
                    · simpa using this

theorem decodeHeaderE_ok_raw {buf : List Nat} {h : DicomHeader}
    (hd : decodeHeaderE buf = Except.ok h) : rawHeader buf = some h := by
  unfold decodeHeaderE at hd
  cases hr : rawHeader buf with
  | none => rw [hr] at hd; cases hd
  | some h' =>
      rw [hr] at hd
      dsimp only at hd
      by_cases hc : (h'.length = UNDEFINED_LENGTH && !undefinedAllowed h') = true
      · rw [if_pos hc] at hd; cases hd
      · rw [if_neg hc] at hd
        rw [Except.ok.inj hd]

theorem decodeHeaderE_append {buf ext : List Nat} {h : DicomHeader}
    (hd : decodeHeaderE buf = Except.ok h) :
    decodeHeaderE (buf ++ ext) = Except.ok h := by
  have hraw := decodeHeaderE_ok_raw hd
  unfold decodeHeaderE at hd ⊢
  rw [hraw] at hd
  rw [rawHeader_append hraw]
  dsimp only at hd ⊢
  by_cases hc : (h.length = UNDEFINED_LENGTH && !undefinedAllowed h) = true
  · rw [if_pos hc] at hd; cases hd
  · rw [if_neg hc] at hd ⊢

theorem findDelim_le {l : List Nat} {p : Nat} (h : findDelim l = some p) :
    p + 8 ≤ l.length := by
  induction l generalizing p with
  | nil => cases h
  | cons a t ih =>
      unfold findDelim at h
      split at h
      · split at h
        · cases h
          assumption
        · cases h
      · cases hq : findDelim t with
        | none => rw [hq] at h; cases h
        | some q =>
            rw [hq] at h
            cases h
            have := ih hq
            simp only [List.length_cons]
            omega

theorem isDelimAt_append {l ext : List Nat} (hlen : 4 ≤ l.length) :
    isDelimAt (l ++ ext) = isDelimAt l := by
  unfold isDelimAt
  rw [List.take_append_eq_append_take]
  have h4 : 4 - l.length = 0 := by omega
  rw [h4]
  simp

theorem findDelim_append {l ext : List Nat} {p : Nat}
    (h : findDelim l = some p) : findDelim (l ++ ext) = some p := by
  induction l generalizing p with
  | nil => cases h
  | cons a t ih =>
      have hlen8 : p + 8 ≤ (a :: t).length := findDelim_le h
      unfold findDelim at h
      rw [List.cons_append]
      unfold findDelim
      split at h
      · rename_i hdel
        split at h
        · cases h
          have h4 : 4 ≤ (a :: t).length := by
            simp only [List.length_cons] at hlen8 ⊢
            omega
          have hda : isDelimAt (a :: (t ++ ext)) = true := by
            have hq := @isDelimAt_append (a :: t) ext h4
            rw [List.cons_append] at hq
            rw [hq]
            exact hdel
          rw [if_pos hda]
          rw [if_pos (show 8 ≤ (a :: (t ++ ext)).length by
            simp only [List.length_cons, List.length_append]
            simp only [List.length_cons] at hlen8
            omega)]
        · cases h
      · rename_i hdel
        cases hq : findDelim t with
        | none => rw [hq] at h; cases h
        | some q =>
            rw [hq] at h
            cases h
            have h4 : 4 ≤ (a :: t).length := by
              have := findDelim_le hq
              simp only [List.length_cons]
              omega
            have hdel' : isDelimAt (a :: (t ++ ext)) = false := by
              have hiso := @isDelimAt_append (a :: t) ext h4
              rw [List.cons_append] at hiso
              rw [hiso]
              simpa using hdel
            rw [if_neg (by simp [hdel'])]
            rw [ih hq]
            rfl

theorem decodeNext_bounds {buf : List Nat} {en : DicomElt × Nat}
    (h : decodeNext buf = some en) : 0 < en.2 ∧ en.2 ≤ buf.length := by
  unfold decodeNext at h
  cases hd : decodeHeaderE buf with
  | error e => rw [hd] at h; cases h
  | ok hh =>
      rw [hd] at h
      dsimp only at h
      have hsz := rawHeader_size (decodeHeaderE_ok_raw hd)
      by_cases hu : hh.length = UNDEFINED_LENGTH
      · rw [if_pos hu] at h
        cases hp : findDelim (buf.drop hh.headerSize) with
        | none => rw [hp] at h; cases h
        | some p =>
            rw [hp] at h
            cases h
            have hple := findDelim_le hp
            rw [List.length_drop] at hple
            constructor
            · dsimp only
              omega
            · dsimp only
              omega
      · rw [if_neg hu] at h
        by_cases hle : hh.headerSize + hh.length ≤ buf.length
        · rw [if_pos hle] at h
          cases h
          constructor
          · dsimp only
            omega
          · exact hle
        · rw [if_neg hle] at h
          cases h

theorem decodeNext_append {buf ext : List Nat} {en : DicomElt × Nat}
    (h : decodeNext buf = some en) : decodeNext (buf ++ ext) = some en := by
  unfold decodeNext at h ⊢
  cases hd : decodeHeaderE buf with
  | error e => rw [hd] at h; cases h
  | ok hh =>
      rw [hd] at h
      dsimp only at h
      rw [decodeHeaderE_append hd]
      dsimp only
      have hsz := rawHeader_size (decodeHeaderE_ok_raw hd)
      have hdrop : (buf ++ ext).drop hh.headerSize = buf.drop hh.headerSize ++ ext := by
        rw [List.drop_append_eq_append_drop]
        have hz : hh.headerSize - buf.length = 0 := by omega
        rw [hz, List.drop_zero]
      by_cases hu : hh.length = UNDEFINED_LENGTH
      · rw [if_pos hu] at h ⊢
        cases hp : findDelim (buf.drop hh.headerSize) with
        | none => rw [hp] at h; cases h
        | some p =>
            rw [hp] at h
            have hple := findDelim_le hp
            rw [hdrop, findDelim_append hp]
            have htake : (buf.drop hh.headerSize ++ ext).take p
                = (buf.drop hh.headerSize).take p := by
              rw [List.take_append_eq_append_take]
              have hz : p - (buf.drop hh.headerSize).length = 0 := by omega
              rw [hz, List.take_zero, List.append_nil]
            dsimp only at h ⊢
            rw [htake]
            exact h
      · rw [if_neg hu] at h ⊢
        by_cases hle : hh.headerSize + hh.length ≤ buf.length
        · rw [if_pos hle] at h
          rw [if_pos (by rw [List.length_append]; omega)]
          have htake : (buf ++ ext).drop hh.headerSize
              = buf.drop hh.headerSize ++ ext := hdrop
          rw [htake]
          have htk : (buf.drop hh.headerSize ++ ext).take hh.length
              = (buf.drop hh.headerSize).take hh.length := by
            rw [List.take_append_eq_append_take]
            have hz : hh.length - (buf.drop hh.headerSize).length = 0 := by
              rw [List.length_drop]
              omega
            rw [hz, List.take_zero, List.append_nil]
          rw [htk]
          exact h
        · rw [if_neg hle] at h
          cases h

/-- Modelled from the spec (4.5, 4.6): the greedy decode loop shared by both
drivers — decode elements from the front of the buffer until no complete
element remains, returning the decoded elements in order and the unconsumed
suffix (the one-shot driver's element sequence; the streaming driver's
pending Buffer Window). -/
def decodeAll (buf : List Nat) : List DicomElt × List Nat :=
  match hd : decodeNext buf with
  | none => ([], buf)
  | some en =>
      let r := decodeAll (buf.drop en.2)
      (en.1 :: r.1, r.2)
termination_by buf.length
decreasing_by
  have hb := decodeNext_bounds hd
  simp only [List.length_drop]
  omega

theorem decodeNext_nil : decodeNext [] = none := rfl

theorem decodeAll_none {buf : List Nat} (h : decodeNext buf = none) :
    decodeAll buf = ([], buf) := by
  rw [decodeAll]
  split
  · rfl
  · rename_i en hen
    rw [h] at hen
    cases hen

theorem decodeAll_some {buf : List Nat} {en : DicomElt × Nat}
    (h : decodeNext buf = some en) :
    decodeAll buf = (en.1 :: (decodeAll (buf.drop en.2)).1,
      (decodeAll (buf.drop en.2)).2) := by
  rw [decodeAll]
  split
  · rename_i hn
    rw [h] at hn
    cases hn
  · rename_i en' hen
    rw [h] at hen
    cases hen
    rfl

/-- After the greedy loop stops, the leftover is not decodable. -/
theorem decodeAll_last_aux :
    ∀ (n : Nat) (buf : List Nat), buf.length ≤ n →
      decodeNext (decodeAll buf).2 = none := by
  intro n
  induction n with
  | zero =>
      intro buf hb
      have : buf = [] := List.eq_nil_of_length_eq_zero (Nat.le_zero.1 hb)
      subst this
      rw [decodeAll_none decodeNext_nil]
      exact decodeNext_nil
  | succ n ih =>
      intro buf hb
      cases hd : decodeNext buf with
      | none =>
          rw [decodeAll_none hd]
          exact hd
      | some en =>
          rw [decodeAll_some hd]
          have hbd := decodeNext_bounds hd
          apply ih
          rw [List.length_drop]
          omega

theorem decodeAll_last (buf : List Nat) : decodeNext (decodeAll buf).2 = none :=
  decodeAll_last_aux buf.length buf le_rfl

/-- Decomposition of the greedy loop over an append: decode what the prefix
allows, then continue from its leftover joined with the extension. -/
theorem decodeAll_append_aux :
    ∀ (n : Nat) (buf ext : List Nat), buf.length ≤ n →
      decodeAll (buf ++ ext)
        = ((decodeAll buf).1 ++ (decodeAll ((decodeAll buf).2 ++ ext)).1,
           (decodeAll ((decodeAll buf).2 ++ ext)).2) := by
  intro n
  induction n with
  | zero =>
      intro buf ext hb
      have : buf = [] := List.eq_nil_of_length_eq_zero (Nat.le_zero.1 hb)
      subst this
      rw [decodeAll_none decodeNext_nil]
      simp
  | succ n ih =>
      intro buf ext hb
      cases hd : decodeNext buf with
      | none =>
          rw [decodeAll_none hd]
          simp
      | some en =>
          have hbd := decodeNext_bounds hd
          rw [decodeAll_some hd]
          rw [decodeAll_some (decodeNext_append hd)]
          have hdrop : (buf ++ ext).drop en.2 = buf.drop en.2 ++ ext := by
            rw [List.drop_append_eq_append_drop]
            have hz : en.2 - buf.length = 0 := by omega
            rw [hz, List.drop_zero]
          rw [hdrop]
          rw [ih (buf.drop en.2) ext (by rw [List.length_drop]; omega)]
          simp

/-- Modelled from the spec (4.6): the streaming driver's `processChunk` at
the decode level — append the chunk to the pending buffer window, emit every
now-complete element, keep the rest pending. -/
def streamStep (acc : List DicomElt × List Nat) (c : List Nat) :
    List DicomElt × List Nat :=
  ((acc.1 ++ (decodeAll (acc.2 ++ c)).1), (decodeAll (acc.2 ++ c)).2)

/-- Modelled from the spec (4.6): feed the chunks in order from a fresh
parser; the first component is the ordered sequence of elements emitted via
`onElement`, the second the final pending buffer (which `finalize` can no
longer decode, by `decodeAll_last`). -/
def streamRun (chunks : List (List Nat)) : List DicomElt × List Nat :=
  chunks.foldl streamStep ([], [])

/-- The ordered dataset a driver builds from an element sequence: tags are
unique, last decode wins (spec 3, Dataset). -/
def toDataset (es : List DicomElt) : List ((Nat × Nat) × DicomElt) :=
  es.foldl (fun d e => entrySet d (e.group, e.element) e) []

theorem streamRun_aux :
    ∀ (cs : List (List Nat)) (es : List DicomElt) (buf : List Nat),
      decodeNext buf = none →
      cs.foldl streamStep (es, buf)
        = (es ++ (decodeAll (buf ++ cs.flatten)).1,
           (decodeAll (buf ++ cs.flatten)).2) := by
  intro cs
  induction cs with
  | nil =>
      intro es buf hb
      simp only [List.foldl_nil, List.flatten_nil, List.append_nil]
      rw [decodeAll_none hb]
      simp
  | cons c cs ih =>
      intro es buf hb
      rw [List.foldl_cons]
      have hs : streamStep (es, buf) c
          = (es ++ (decodeAll (buf ++ c)).1, (decodeAll (buf ++ c)).2) := rfl
      rw [hs]
      rw [ih (es ++ (decodeAll (buf ++ c)).1) ((decodeAll (buf ++ c)).2)
        (decodeAll_last (buf ++ c))]
      rw [List.flatten_cons, ← List.append_assoc]
      rw [decodeAll_append_aux (buf ++ c).length (buf ++ c) cs.flatten le_rfl]
      simp [List.append_assoc]

/-- C1: chunking invariance — for every partition of a byte stream into
chunks, the ordered element sequence the streaming driver emits equals the
one-shot driver's decode of the concatenated stream (so it is the same for
all partitions of the same stream), its pending leftover equals the one-shot
leftover, and the dataset built from the emitted elements equals the
one-shot dataset. -/
theorem chunking_invariance (chunks : List (List Nat)) :
    streamRun chunks = decodeAll chunks.flatten ∧
    toDataset (streamRun chunks).1 = toDataset (decodeAll chunks.flatten).1 := by
  have h := streamRun_aux chunks [] [] decodeNext_nil
  have heq : streamRun chunks = decodeAll chunks.flatten := by
    unfold streamRun
    rw [h]
    simp
  exact ⟨heq, by rw [heq]⟩

/-! ## Streaming driver lifecycle and resource bounds (spec 4.6, 7)

Modelled from the spec: the `StreamingParser` source is not under `src/`.
States `UNINITIALIZED → ACTIVE → FINALIZED`; `initialize` fails when called
twice, any method after `finalize` fails, both with the fatal LifecycleError
(thrown, not reported through `onError`); exceeding `maxBufferSize` with the
pending Buffer Window raises the fatal ResourceLimitError. Fatal errors are
the `Except.error` results; `onError` reporting of recoverable decode errors
is outside this model. -/

inductive Phase
  | uninitialized
  | active
  | finalized
deriving DecidableEq

structure StreamState where
  phase : Phase
  buffer : List Nat
  emitted : List DicomElt
deriving DecidableEq

inductive FatalError
  | lifecycleError
  | resourceLimitError
deriving DecidableEq

/-- Modelled from the spec (4.6 `processChunk`): reject any call outside the
ACTIVE state with the fatal LifecycleError; otherwise append the chunk to the
Buffer Window, decode and emit every complete element, and raise the fatal
ResourceLimitError when the pending window exceeds `maxBufferSize`. -/
def processChunk (maxBufferSize : Nat) (chunk : List Nat) (s : StreamState) :
    Except FatalError StreamState :=
  if s.phase ≠ Phase.active then Except.error FatalError.lifecycleError
  else
    let r := decodeAll (s.buffer ++ chunk)
    if maxBufferSize < r.2.length then Except.error FatalError.resourceLimitError
    else Except.ok { phase := Phase.active, buffer := r.2, emitted := s.emitted ++ r.1 }

/-- Modelled from the spec (4.6 `initialize(firstChunk)`): only legal in the
UNINITIALIZED state (calling it twice is the fatal LifecycleError); moves to
ACTIVE and processes the first chunk. -/
def initializeStream (maxBufferSize : Nat) (chunk : List Nat) (s : StreamState) :
    Except FatalError StreamState :=
  if s.phase ≠ Phase.uninitialized then Except.error FatalError.lifecycleError
  else processChunk maxBufferSize chunk { s with phase := Phase.active }

/-- Modelled from the spec (4.6 `finalize`): only legal in the ACTIVE state;
flushes the remaining decodable bytes (none remain, by `decodeAll_last`) and
moves to FINALIZED. -/
def finalize (s : StreamState) : Except FatalError StreamState :=
  if s.phase ≠ Phase.active then Except.error FatalError.lifecycleError
  else Except.ok { s with phase := Phase.finalized }

/-- C6: the lifecycle moves only UNINITIALIZED → ACTIVE → FINALIZED:
`initialize` on an already active or finalized parser fails with the fatal
LifecycleError; after `finalize`, both `processChunk` and `initialize` fail
with the fatal LifecycleError; and the successful transitions are exactly
uninitialized → active (`initialize`), active → active (`processChunk`) and
active → finalized (`finalize`) — a finalized parser never processes another
chunk. -/
theorem lifecycle_state_machine (maxBufferSize : Nat) (chunk : List Nat)
    (s : StreamState) :
    (s.phase = Phase.active ∨ s.phase = Phase.finalized →
      initializeStream maxBufferSize chunk s = Except.error FatalError.lifecycleError) ∧
    (s.phase = Phase.finalized →
      processChunk maxBufferSize chunk s = Except.error FatalError.lifecycleError) ∧
    (∀ s', initializeStream maxBufferSize chunk s = Except.ok s' →
      s.phase = Phase.uninitialized ∧ s'.phase = Phase.active) ∧
    (∀ s', processChunk maxBufferSize chunk s = Except.ok s' →
      s.phase = Phase.active ∧ s'.phase = Phase.active) ∧
    (∀ s', finalize s = Except.ok s' →
      s.phase = Phase.active ∧ s'.phase = Phase.finalized) := by
  refine ⟨?_, ?_, ?_, ?_, ?_⟩
  · intro hp
    unfold initializeStream
    rw [if_pos ?_]
    rcases hp with hp | hp <;> simp [hp]
  · intro hp
    unfold processChunk
    rw [if_pos (by simp [hp])]
  · intro s' hs
    unfold initializeStream at hs
    by_cases hp : s.phase = Phase.uninitialized
    · refine ⟨hp, ?_⟩
      rw [if_neg (by simp [hp])] at hs
      unfold processChunk at hs
      rw [if_neg (by simp)] at hs
      dsimp only at hs
      by_cases hover : maxBufferSize
          < (decodeAll (s.buffer ++ chunk)).2.length
      · rw [if_pos hover] at hs
        cases hs
      · rw [if_neg hover] at hs
        cases hs
        rfl
    · rw [if_pos (by simp [hp])] at hs
      cases hs
  · intro s' hs
    unfold processChunk at hs
    by_cases hp : s.phase = Phase.active
    · refine ⟨hp, ?_⟩
      rw [if_neg (by simp [hp])] at hs
      dsimp only at hs
      by_cases hover : maxBufferSize < (decodeAll (s.buffer ++ chunk)).2.length
      · rw [if_pos hover] at hs
        cases hs
      · rw [if_neg hover] at hs
        cases hs
        rfl
    · rw [if_pos (by simp [hp])] at hs
      cases hs
  · intro s' hs
    unfold finalize at hs
    by_cases hp : s.phase = Phase.active
    · refine ⟨hp, ?_⟩
      rw [if_neg (by simp [hp])] at hs
      cases hs
      rfl
    · rw [if_pos (by simp [hp])] at hs
      cases hs

/-- Witness for C6: a finalized parser rejects `processChunk` and
`initialize` with the fatal LifecycleError, and a fresh parser initializes. -/
theorem lifecycle_state_machine_witness :
    processChunk 10 [1, 2] { phase := Phase.finalized, buffer := [], emitted := [] }
        = Except.error FatalError.lifecycleError ∧
    initializeStream 10 [1, 2] { phase := Phase.finalized, buffer := [], emitted := [] }
        = Except.error FatalError.lifecycleError := by
  refine ⟨?_, ?_⟩
  · exact (lifecycle_state_machine 10 [1, 2]
      { phase := Phase.finalized, buffer := [], emitted := [] }).2.1 rfl
  · exact (lifecycle_state_machine 10 [1, 2]
      { phase := Phase.finalized, buffer := [], emitted := [] }).1 (Or.inr rfl)

/-- C7: exceeding the Buffer Window bound is the fatal ResourceLimitError
(an `Except.error`, not an `onError` report): whenever the pending window
after appending a chunk would exceed `maxBufferSize` — for example chunks
that never complete a single header — the call fails with
ResourceLimitError; and every successful call leaves the buffered window at
most `maxBufferSize`, so buffered memory never exceeds the configured
bound. -/
theorem resource_limit (maxBufferSize : Nat) (chunk : List Nat) (s : StreamState) :
    (s.phase = Phase.active →
      maxBufferSize < (decodeAll (s.buffer ++ chunk)).2.length →
      processChunk maxBufferSize chunk s = Except.error FatalError.resourceLimitError) ∧
    (∀ s', processChunk maxBufferSize chunk s = Except.ok s' →
      s'.buffer.length ≤ maxBufferSize) ∧
    (∀ s', initializeStream maxBufferSize chunk s = Except.ok s' →
      s'.buffer.length ≤ maxBufferSize) ∧
    (∀ s', finalize s = Except.ok s' → s'.buffer = s.buffer) := by
  refine ⟨?_, ?_, ?_, ?_⟩
  · intro hp hover
    unfold processChunk
    rw [if_neg (by simp [hp])]
    dsimp only
    rw [if_pos hover]
  · intro s' hs
    unfold processChunk at hs
    by_cases hp : s.phase = Phase.active
    · rw [if_neg (by simp [hp])] at hs
      dsimp only at hs
      by_cases hover : maxBufferSize < (decodeAll (s.buffer ++ chunk)).2.length
      · rw [if_pos hover] at hs
        cases hs
      · rw [if_neg hover] at hs
        cases hs
        dsimp only
        omega
    · rw [if_pos (by simp [hp])] at hs
      cases hs
  · intro s' hs
    unfold initializeStream at hs
    by_cases hp : s.phase = Phase.uninitialized
    · rw [if_neg (by simp [hp])] at hs
      unfold processChunk at hs
      rw [if_neg (by simp)] at hs
      dsimp only at hs
      by_cases hover : maxBufferSize
          < (decodeAll (s.buffer ++ chunk)).2.length
      · rw [if_pos hover] at hs
        cases hs
      · rw [if_neg hover] at hs
        cases hs
        dsimp only
        omega
    · rw [if_pos (by simp [hp])] at hs
      cases hs
  · intro s' hs
    unfold finalize at hs
    by_cases hp : s.phase = Phase.active
    · rw [if_neg (by simp [hp])] at hs
      cases hs
      rfl
    · rw [if_pos (by simp [hp])] at hs
      cases hs

/-- Witness for C7: bytes that never complete a header (4 bytes cannot hold
an explicit-VR header) overflow a 2-byte window and raise the fatal
ResourceLimitError. -/
theorem resource_limit_witness :
    processChunk 2 [1, 2, 3, 4] { phase := Phase.active, buffer := [], emitted := [] }
      = Except.error FatalError.resourceLimitError := by
  have h := (resource_limit 2 [1, 2, 3, 4]
    { phase := Phase.active, buffer := [], emitted := [] }).1 rfl
  apply h
  rw [decodeAll_none (show decodeNext ([] ++ [1, 2, 3, 4]) = none from rfl)]
  decide

end RadParse
